import Mathlib

/-!
Shallow embedding of the interval-detection engine of `plethysmo`
(`src/plethysmo/kernel/edf_file_reader.py`), over exact rationals.

Machine reals are modelled by `ℚ`; a float that may be non-finite (NaN from
a 0/0 division) is modelled by `Option ℚ` with `none` for the non-finite
value.  Sample buffers are modelled as an index function `sig : ℕ → ℚ`
together with a length `n`; every access the source performs is within
bounds, so the total function is a faithful model.
-/

namespace Plethysmo

/-- Python `int()` applied to a rational: truncation toward zero
(floor for non-negative values, ceiling for negative ones). -/
def truncInt (q : ℚ) : ℤ := if 0 ≤ q then ⌊q⌋ else ⌈q⌉

/-- Modelled from the spec: `plethysmo.kernel.roi.ROI` is not among the staged
source files.  Per the spec (§3, Region), a region is a rectangle in
(time, amplitude) space given by its two corner points: `lower = (t0, a0)`
and `upper = (t1, a1)`.  The reader unpacks exactly these two pairs
(`roi.lower_corner`, `roi.upper_corner`). -/
structure ROI where
  lower : ℚ × ℚ
  upper : ℚ × ℚ
deriving DecidableEq

/-! ## Signal normalization (`EDFFileReader.__init__`, lines 37-43)

The source does, with numpy array arithmetic:
`signal -= mini; signal /= (maxi-mini); signal -= 0.5; signal *= 2.0`.
With IEEE floats a flat signal gives `0/0 = NaN` for every sample (numpy
emits a warning, not an exception).  `none` stands for the non-finite
result of the division: when the divisor is zero here the dividend is zero
as well, so `none` is exactly NaN. -/

/-- `numpy.ndarray.min` of the raw buffer (the source never calls it on an
empty buffer; the `[]` case is an arbitrary default). -/
def listMin : List ℚ → ℚ
  | [] => 0
  | x :: xs => xs.foldl min x

/-- `numpy.ndarray.max` of the raw buffer. -/
def listMax : List ℚ → ℚ
  | [] => 0
  | x :: xs => xs.foldl max x

/-- Float division; `none` is the non-finite quotient produced when the
divisor is zero. -/
def fdiv (x y : ℚ) : Option ℚ := if y = 0 then none else some (x / y)

/-- One sample through lines 40-43: `((s - mini) / (maxi - mini) - 0.5) * 2`,
with non-finite values propagated. -/
def normalizeSample (mini maxi s : ℚ) : Option ℚ :=
  (fdiv (s - mini) (maxi - mini)).map (fun v => (v - 0.5) * 2)

/-- Lines 37-43: autoscale the signal so that its limits become [-1, 1]. -/
def normalizeSignal (raw : List ℚ) : List (Option ℚ) :=
  raw.map (fun s => normalizeSample (listMin raw) (listMax raw) s)

/-! ## Segmentation scan (`update_valid_intervals`, lines 335-377)

The inner `while comp1 < end_roi` loop (lines 357-374) advances `comp1` by
one on every non-breaking step, so it is embedded structurally on the count
`r` of remaining iterations, with the invariant `comp1 + r = end_roi` at the
single call site (`r := end_roi - comp1` there, so the guard
`comp1 < end_roi` is exactly `0 < r`).  It returns the final value of
`comp1` (the source resumes the outer scan from it, line 375) and the
interval appended on this pass, if any.

The outer `while comp < end_roi` loop (lines 348-377) is embedded with
explicit fuel, returning `none` when the fuel is exhausted: for
`signal_duration < 0` the source loop genuinely diverges (the inner loop
breaks at once on `0 > signal_duration` and `comp` is never advanced), so
the loop is not total and the fuel is the honest model. -/

/-- Inner scan, lines 355-374.  `start` is the fixed run start, `comp1` the
moving pointer; out of band means `s1 < threshold_min or s1 > threshold_max`
(line 360); a run is appended when `(end - start)*dt > signal_duration`
(lines 363, 369). -/
def innerScanAux (sig : ℕ → ℚ) (tmin tmax dt D : ℚ) (start : ℕ) :
    ℕ → ℕ → ℕ × Option (ℕ × ℕ)
  | 0, comp1 => (comp1, none)
  | r + 1, comp1 =>
    if sig comp1 < tmin ∨ tmax < sig comp1 then
      (comp1, if D < ((comp1 : ℚ) - (start : ℚ)) * dt then some (start, comp1) else none)
    else
      if D < ((comp1 : ℚ) - (start : ℚ)) * dt then
        (comp1, some (start, comp1))
      else
        innerScanAux sig tmin tmax dt D start r (comp1 + 1)

/-- Outer scan, lines 346-377: from `comp`, look for a sample inside the
band `[tmin, tmax]` (line 353), run the inner scan from it, and resume from
the index the inner scan stopped at.  `acc` is the list built so far;
`hi` is `end_roi`. -/
def outerScan (sig : ℕ → ℚ) (tmin tmax dt D : ℚ) (hi : ℕ) :
    ℕ → ℕ → List (ℕ × ℕ) → Option (List (ℕ × ℕ))
  | 0, _, _ => none
  | fuel + 1, comp, acc =>
    if comp < hi then
      if tmin ≤ sig comp ∧ sig comp ≤ tmax then
        outerScan sig tmin tmax dt D hi fuel
          (innerScanAux sig tmin tmax dt D comp (hi - comp) comp).1
          (acc ++ (innerScanAux sig tmin tmax dt D comp (hi - comp) comp).2.toList)
      else
        outerScan sig tmin tmax dt D hi fuel (comp + 1) acc
    else
      some acc

/-- Lines 335-338: `start_roi = max(int(start_roi/dt), 0)`; `Int.toNat` is
exactly `max · 0` on `ℤ`. -/
def roiLoIndex (dt : ℚ) (roi : ROI) : ℕ := (truncInt (roi.lower.1 / dt)).toNat

/-- Lines 340-343: `end_roi = min(int(end_roi/dt), len(signal)-1)`, as an
integer (it may be negative when the upper corner time is negative). -/
def roiHiIndexZ (dt : ℚ) (n : ℕ) (roi : ROI) : ℤ :=
  min (truncInt (roi.upper.1 / dt)) ((n : ℤ) - 1)

/-- `end_roi` as a natural number.  Both loops compare a non-negative index
against `end_roi` (`comp < end_roi`), and for `comp : ℕ`, `z : ℤ` one has
`(comp : ℤ) < z ↔ comp < z.toNat` (`Int.lt_toNat`), so clamping the bound at
0 does not change either loop. -/
def roiHiIndex (dt : ℚ) (n : ℕ) (roi : ROI) : ℕ := (roiHiIndexZ dt n roi).toNat

/-- The per-ROI segmentation scan of lines 335-377: thresholds are the
amplitudes of the ROI corners, the window its time span converted to
indices. -/
def segmentROI (sig : ℕ → ℚ) (n : ℕ) (dt D : ℚ) (roi : ROI) (fuel : ℕ) :
    Option (List (ℕ × ℕ)) :=
  outerScan sig roi.lower.2 roi.upper.2 dt D (roiHiIndex dt n roi) fuel
    (roiLoIndex dt roi) []

/-! ## Specified segmentation (§4.2 of the spec, for comparison)

Modelled from the spec's words, for the refinement comparison of the
segmentation claim: "produce the maximal set of disjoint candidate intervals
where the signal is continuously within [amin, amax] for longer than D";
"advance an inner index while samples remain inside the band; stop at the
first out-of-band sample or at the window end"; "a run touching the window
boundary without closing (signal still in-band at hi) is never emitted
... only runs that close (transition out of band) are kept". -/

/-- First out-of-band index at or after `j` (or the window end `hi`).
Structural on the remaining count `r`, called with `r = hi - j`. -/
def specFirstOutAux (sig : ℕ → ℚ) (amin amax : ℚ) : ℕ → ℕ → ℕ
  | 0, j => j
  | r + 1, j =>
    if amin ≤ sig j ∧ sig j ≤ amax then specFirstOutAux sig amin amax r (j + 1)
    else j

/-- The spec's scan: find an in-band start, advance to the first out-of-band
sample or the window end; a run that closes (out-of-band before `hi`) is a
candidate iff strictly longer than `D`; a run still in-band at `hi` is never
emitted.  Each step advances the index, so fuel `hi + 1` always suffices. -/
def specRunsAux (sig : ℕ → ℚ) (amin amax dt D : ℚ) (hi : ℕ) :
    ℕ → ℕ → List (ℕ × ℕ)
  | 0, _ => []
  | fuel + 1, comp =>
    if comp < hi then
      if amin ≤ sig comp ∧ sig comp ≤ amax then
        if specFirstOutAux sig amin amax (hi - (comp + 1)) (comp + 1) < hi then
          (if D < ((specFirstOutAux sig amin amax (hi - (comp + 1)) (comp + 1) : ℚ) - (comp : ℚ)) * dt then
            [(comp, specFirstOutAux sig amin amax (hi - (comp + 1)) (comp + 1))]
          else []) ++
          specRunsAux sig amin amax dt D hi fuel
            (specFirstOutAux sig amin amax (hi - (comp + 1)) (comp + 1))
        else []
      else specRunsAux sig amin amax dt D hi fuel (comp + 1)
    else []

/-- The spec's candidate intervals for the window `[lo, hi)`. -/
def specCandidateRuns (sig : ℕ → ℚ) (amin amax dt D : ℚ) (lo hi : ℕ) :
    List (ℕ × ℕ) :=
  specRunsAux sig amin amax dt D hi (hi + 1) lo

/-! ## Exclusion pass (lines 379-401) -/

/-- Lines 386-389: the excluded zone's clamped start index. -/
def zoneLoIndex (dt : ℚ) (z : ROI) : ℕ := (truncInt (z.lower.1 / dt)).toNat

/-- Lines 391-394: the excluded zone's clamped end index (an integer: no
lower clamp is applied). -/
def zoneHiIndexZ (dt : ℚ) (n : ℕ) (z : ROI) : ℤ :=
  min (truncInt (z.upper.1 / dt)) ((n : ℤ) - 1)

/-- Line 397: `end >= start_roi and start <= end_roi`, inclusive on both
ends. -/
def overlapsZone (dt : ℚ) (n : ℕ) (z : ROI) (iv : ℕ × ℕ) : Bool :=
  decide (zoneLoIndex dt z ≤ iv.2) && decide ((iv.1 : ℤ) ≤ zoneHiIndexZ dt n z)

/-- Lines 380-401: keep an interval iff the `for` loop over the excluded
zones finishes without `break`, i.e. iff it overlaps no zone. -/
def exclusionPass (dt : ℚ) (n : ℕ) (zones : List ROI) (ivs : List (ℕ × ℕ)) :
    List (ℕ × ℕ) :=
  ivs.filter (fun iv => zones.all (fun z => ! overlapsZone dt n z iv))

/-! ## Separation pass (lines 403-425)

The inner `while comp1 < n_intervals` loop is structural on the remaining
count (`r = n_intervals - comp1` at the call site).  The outer loop strictly
increases `comp` on every iteration — the inner loop only ever answers with
`comp1 ≥ comp + 1` — and stops once `comp ≥ n_intervals - 1`, so it makes at
most `n_intervals - 1` recursive steps and fuel `n_intervals` (used by
`separationPass`) always suffices; the fuel-exhausted branch is
unreachable there. -/

/-- Lines 412-419: from `comp1`, the first index whose interval starts at
least `signal_separation` seconds after `cur` ends
(`(next[0] - current[1])*dt >= S`), else `none` (the loop's `else`). -/
def sepInnerAux (v : List (ℕ × ℕ)) (dt S : ℚ) (cur : ℕ × ℕ) :
    ℕ → ℕ → Option ℕ
  | 0, _ => none
  | r + 1, comp1 =>
    if S ≤ (((v.getD comp1 (0, 0)).1 : ℚ) - ((cur.2 : ℕ) : ℚ)) * dt then some comp1
    else sepInnerAux v dt S cur r (comp1 + 1)

/-- Lines 406-421: the outer loop over `comp`, accumulating `temp`. -/
def sepOuterAux (v : List (ℕ × ℕ)) (dt S : ℚ) :
    ℕ → ℕ → List (ℕ × ℕ) → List (ℕ × ℕ)
  | 0, _, temp => temp
  | fuel + 1, comp, temp =>
    if comp < v.length - 1 then
      match sepInnerAux v dt S (v.getD comp (0, 0)) (v.length - (comp + 1)) (comp + 1) with
      | some comp1 => sepOuterAux v dt S fuel comp1 (temp ++ [v.getD comp1 (0, 0)])
      | none => sepOuterAux v dt S fuel (comp + 1) temp
    else temp

/-- Lines 403-425: run the nested scan only when at least two intervals
survived (line 406), starting from `temp = [valid_intervals[0]]`. -/
def separationPass (dt S : ℚ) (v : List (ℕ × ℕ)) : List (ℕ × ℕ) :=
  if 2 ≤ v.length then sepOuterAux v dt S v.length 0 [v.getD 0 (0, 0)] else v

/-- The greedy forward thinning the spec describes (§4.3, separation pass):
keep the first interval; keep a candidate iff its start is at least `S`
seconds after the end of the last kept interval, else drop it and compare
the next candidate against the same last-kept interval. -/
def greedyKeep (dt S : ℚ) : ℕ × ℕ → List (ℕ × ℕ) → List (ℕ × ℕ)
  | _, [] => []
  | last, x :: xs =>
    if S ≤ ((x.1 : ℚ) - ((last.2 : ℕ) : ℚ)) * dt then x :: greedyKeep dt S x xs
    else greedyKeep dt S last xs

/-- The spec's whole separation pass (a no-op on 0 or 1 interval). -/
def greedyMerge (dt S : ℚ) : List (ℕ × ℕ) → List (ℕ × ℕ)
  | [] => []
  | v0 :: rest => v0 :: greedyKeep dt S v0 rest

/-! ## The full per-ROI pipeline (`update_valid_intervals`) -/

/-- What `update_valid_intervals` computes for one named ROI: segmentation,
then the exclusion pass, then the separation pass (lines 331-425). -/
def updateValidIntervalsROI (sig : ℕ → ℚ) (n : ℕ) (dt D S : ℚ)
    (zones : List ROI) (roi : ROI) (fuel : ℕ) : Option (List (ℕ × ℕ)) :=
  (segmentROI sig n dt D roi fuel).map
    (fun ivs => separationPass dt S (exclusionPass dt n zones ivs))

/-- `update_valid_intervals` over the ordered mapping of named ROIs
(lines 331, 380, 425): each name is processed independently. -/
def update_valid_intervals (sig : ℕ → ℚ) (n : ℕ) (dt D S : ℚ)
    (zones : List ROI) (rois : List (String × ROI)) (fuel : ℕ) :
    Option (List (String × List (ℕ × ℕ))) :=
  rois.mapM (fun nr =>
    (updateValidIntervalsROI sig n dt D S zones nr.2 fuel).map (fun l => (nr.1, l)))

/-! ## Parameters setter (lines 250-262)

The dict value under a key is modelled by what `float()` makes of it:
`some q` when it parses to the rational `q`, `none` when `float()` raises
`ValueError`; an absent key is the outer `none` (then `params.get` supplies
the numeric default, which parses).  The setter assigns
`self._signal_duration` first and `self._signal_separation` second inside
one `try`, so an exception from the second `float()` propagates after the
first assignment already happened; the `Except.error` value carries the
reader's parameter state at that moment. -/

structure ReaderParams where
  signal_duration : ℚ
  signal_separation : ℚ
deriving DecidableEq

structure ParamDict where
  signal_duration : Option (Option ℚ)
  signal_separation : Option (Option ℚ)

/-- `float(params.get(key, default))`. -/
def floatField (v : Option (Option ℚ)) (default : ℚ) : Option ℚ :=
  match v with
  | none => some default
  | some pv => pv

/-- The `parameters` setter, lines 250-262. -/
def parameters_set (st : ReaderParams) (p : ParamDict) :
    Except ReaderParams ReaderParams :=
  match floatField p.signal_duration 5 with
  | none => Except.error st
  | some d =>
    match floatField p.signal_separation 15 with
    | none => Except.error (ReaderParams.mk d st.signal_separation)
    | some s => Except.ok (ReaderParams.mk d s)

/-! ## Statistics (`compute_statistics`, lines 102-133)

The method builds `statistics = OrderedDict()`, computes `integral` and
`period` for every interval of every name, stores neither anywhere, and
falls off the end (returning `None`); the embedding returns the
`statistics` mapping the loop built, and mirrors the dead per-interval
computations as discarded `let` bindings.

The detrending (lines 116-118) zeroes the zero-frequency bin of the DFT and
inverse-transforms; in exact arithmetic this is subtraction of the
arithmetic mean, which is how it is embedded.  The autocorrelation
(line 124) keeps the non-negative-lag half of `numpy.correlate(w, w,
'full')`: lag `k` is `∑ j, w[j+k]*w[j]`. -/

/-- The window `signal[start:end]` (line 113). -/
def intervalSlice (sig : ℕ → ℚ) (s e : ℕ) : List ℚ :=
  (List.range (e - s)).map (fun j => sig (s + j))

/-- Lines 116-118: remove the baseline (zero-frequency component). -/
def detrend (w : List ℚ) : List ℚ :=
  w.map (fun x => x - w.sum / (w.length : ℚ))

/-- Line 120: `np.sum(windowed_interval*dt)` over the detrended window. -/
def intervalIntegral (sig : ℕ → ℚ) (dt : ℚ) (s e : ℕ) : ℚ :=
  ((detrend (intervalSlice sig s e)).map (fun x => x * dt)).sum

/-- Line 124: the non-negative-lag autocorrelation at lag `k`. -/
def acfAt (w : List ℚ) (k : ℕ) : ℚ :=
  ((List.range (w.length - k)).map (fun j => w.getD (j + k) 0 * w.getD j 0)).sum

/-- The autocorrelation sequence, lags `0 .. len-1`. -/
def acfList (w : List ℚ) : List ℚ :=
  (List.range w.length).map (fun k => acfAt w k)

/-- `numpy.sign`. -/
def sgn (q : ℚ) : ℚ := if 0 < q then 1 else if q < 0 then -1 else 0

/-- `numpy.diff`: successive differences. -/
def diffList (l : List ℚ) : List ℚ :=
  (List.range (l.length - 1)).map (fun i => l.getD (i + 1) 0 - l.getD i 0)

/-- Lines 126-128: `inflection = diff(sign(diff(acf)))`;
`peaks = (inflection < 0).nonzero()[0] + 1`. -/
def acfPeaks (w : List ℚ) : List ℕ :=
  (((List.range (diffList ((diffList (acfList w)).map sgn)).length).filter
    (fun i => decide ((diffList ((diffList (acfList w)).map sgn)).getD i 0 < 0))).map
    (fun i => i + 1))

/-- `numpy.argmax`: index of the first maximal entry. -/
def argmaxFirst (l : List ℚ) : ℕ :=
  (List.range l.length).foldl
    (fun best i => if l.getD best 0 < l.getD i 0 then i else best) 0

/-- Lines 122-133: the period, `none` (`np.nan`) when no peak exists,
else `peaks[acf[peaks].argmax()] * dt`. -/
def intervalPeriod (sig : ℕ → ℚ) (dt : ℚ) (s e : ℕ) : Option ℚ :=
  if acfPeaks (detrend (intervalSlice sig s e)) = [] then none
  else
    some (((acfPeaks (detrend (intervalSlice sig s e))).getD
      (argmaxFirst ((acfPeaks (detrend (intervalSlice sig s e))).map
        (fun p => (acfList (detrend (intervalSlice sig s e))).getD p 0))) 0 : ℚ) * dt)

/-- `compute_statistics`, lines 102-133: `statistics` starts empty, the loop
computes `integral` and `period` for every interval and discards both, and
nothing is ever added to `statistics`. -/
def compute_statistics (sig : ℕ → ℚ) (dt : ℚ)
    (valid : List (String × List (ℕ × ℕ))) : List (String × (ℚ × Option ℚ)) :=
  valid.foldl
    (fun stats nmivs =>
      nmivs.2.foldl
        (fun stats se =>
          let _ := intervalIntegral sig dt se.1 se.2
          let _ := intervalPeriod sig dt se.1 se.2
          stats)
        stats)
    ([] : List (String × (ℚ × Option ℚ)))

/-! ## Concrete instances used by witnesses and counterexamples -/

/-- An all-zero signal: everywhere inside the band `[-1, 1]`. -/
def sigC : ℕ → ℚ := fun _ => 0

/-- A scope over times `[0, 10]` with amplitude band `[-1, 1]`. -/
def roiC : ROI := ROI.mk (0, -1) (10, 1)

/-!
Theorems.  The rational-arithmetic primitives are restored to their default
reducibility so that kernel evaluation of the embedding at concrete inputs
(the `decide` proofs below) can unfold them.
-/

set_option allowUnsafeReducibility true in
attribute [semireducible] Rat.mul Rat.add Rat.sub Rat.div Rat.neg Rat.inv Rat.blt

/-- A fold whose step returns its accumulator unchanged returns the initial
accumulator. -/
theorem foldl_const {α β : Type} (f : β → α → β) (hf : ∀ b a, f b a = b) :
    ∀ (l : List α) (b : β), l.foldl f b = b := by
  intro l
  induction l with
  | nil => intro b; rfl
  | cons x xs ih => intro b; rw [List.foldl_cons, hf b x]; exact ih b

/-- C2 (code_bug record): `compute_statistics` yields no statistics record at
all, whatever the signal and whatever intervals were accepted: the loop
computes `integral` and `period` for every interval and discards both, so
the `statistics` mapping it builds stays empty. -/
theorem compute_statistics_returns_no_records (sig : ℕ → ℚ) (dt : ℚ)
    (valid : List (String × List (ℕ × ℕ))) :
    compute_statistics sig dt valid = [] := by
  refine foldl_const _ (fun b nmivs => ?_) valid []
  exact foldl_const _ (fun b2 se => rfl) nmivs.2 b

theorem foldl_min_replicate (c : ℚ) : ∀ k, (List.replicate k c).foldl min c = c := by
  intro k
  induction k with
  | zero => rfl
  | succ k ih => rw [List.replicate_succ, List.foldl_cons, min_self]; exact ih

theorem foldl_max_replicate (c : ℚ) : ∀ k, (List.replicate k c).foldl max c = c := by
  intro k
  induction k with
  | zero => rfl
  | succ k ih => rw [List.replicate_succ, List.foldl_cons, max_self]; exact ih

theorem listMin_replicate (c : ℚ) (k : ℕ) : listMin (List.replicate (k + 1) c) = c := by
  rw [List.replicate_succ]; exact foldl_min_replicate c k

theorem listMax_replicate (c : ℚ) (k : ℕ) : listMax (List.replicate (k + 1) c) = c := by
  rw [List.replicate_succ]; exact foldl_max_replicate c k

/-- C3 (code_bug record): loading a flat (constant, nonempty) signal does not
fail anywhere; the normalization divides 0 by 0 and every sample of the
stored signal becomes NaN. -/
theorem flat_signal_normalizes_to_nan (c : ℚ) (k : ℕ) :
    normalizeSignal (List.replicate (k + 1) c) = List.replicate (k + 1) none := by
  unfold normalizeSignal normalizeSample fdiv
  rw [listMin_replicate, listMax_replicate]
  simp

/-- C5: an interval is kept by the exclusion pass iff it was a candidate and
the inclusive-bounds overlap test (`end >= start_roi and start <= end_roi`
on the clamped index window) fails for every excluded zone; in particular no
kept interval overlaps any excluded zone's window. -/
theorem exclusion_pass_mem_iff (dt : ℚ) (n : ℕ) (zones : List ROI)
    (ivs : List (ℕ × ℕ)) (iv : ℕ × ℕ) :
    iv ∈ exclusionPass dt n zones ivs ↔
      iv ∈ ivs ∧ ∀ z ∈ zones, overlapsZone dt n z iv = false := by
  simp [exclusionPass, List.mem_filter, List.all_eq_true]

/-- C8 (counterexample): starting from stored parameters (5, 15), a mapping
whose `signal duration` field parses to 7 but whose `signal separation`
field is malformed makes the setter raise with `signal_duration` already
changed to 7: the previously stored value 5 is not retained, so the
rejection is not atomic. -/
theorem parameters_setter_not_atomic_counterexample :
    parameters_set (ReaderParams.mk 5 15) (ParamDict.mk (some (some 7)) (some none))
      = Except.error (ReaderParams.mk 7 15) ∧ (7 : ℚ) ≠ 5 := by
  exact ⟨rfl, by norm_num⟩

/-- C8 (amended): when the `signal duration` field itself is malformed the
error is raised before any assignment and both prior values are retained;
but when `signal duration` parses to `d` and `signal separation` is
malformed, the error is raised with `signal_duration` already updated to
`d` and only `signal_separation` retaining its prior value. -/
theorem parameters_setter_partial_update (st : ReaderParams) (d : ℚ)
    (sep : Option (Option ℚ)) :
    parameters_set st (ParamDict.mk (some none) sep) = Except.error st ∧
    parameters_set st (ParamDict.mk (some (some d)) (some none))
      = Except.error (ReaderParams.mk d st.signal_separation) := by
  exact ⟨rfl, rfl⟩

/-! ### Invariants of the segmentation scan -/

theorem innerScanAux_fst_ge (sig : ℕ → ℚ) (tmin tmax dt D : ℚ) (start : ℕ) :
    ∀ (r c1 : ℕ), c1 ≤ (innerScanAux sig tmin tmax dt D start r c1).1 := by
  intro r
  induction r with
  | zero => intro c1; exact le_refl c1
  | succ r ih =>
    intro c1
    simp only [innerScanAux]
    split
    · exact le_refl c1
    · split
      · exact le_refl c1
      · exact le_trans (Nat.le_succ c1) (ih (c1 + 1))

theorem innerScanAux_fst_le (sig : ℕ → ℚ) (tmin tmax dt D : ℚ) (start : ℕ) :
    ∀ (r c1 : ℕ), (innerScanAux sig tmin tmax dt D start r c1).1 ≤ c1 + r := by
  intro r
  induction r with
  | zero => intro c1; exact Nat.le_add_right c1 0
  | succ r ih =>
    intro c1
    simp only [innerScanAux]
    split
    · omega
    · split
      · omega
      · have := ih (c1 + 1)
        omega

theorem innerScanAux_progress (sig : ℕ → ℚ) (tmin tmax dt D : ℚ)
    (hD : 0 ≤ D) (r c1 : ℕ) (h1 : tmin ≤ sig c1) (h2 : sig c1 ≤ tmax) :
    c1 + 1 ≤ (innerScanAux sig tmin tmax dt D c1 (r + 1) c1).1 := by
  have hob : ¬ (sig c1 < tmin ∨ tmax < sig c1) := by
    push_neg
    exact ⟨h1, h2⟩
  have heager : ¬ (D < ((c1 : ℚ) - (c1 : ℚ)) * dt) := by
    rw [not_lt, sub_self, zero_mul]
    exact hD
  simp only [innerScanAux, if_neg hob, if_neg heager]
  exact innerScanAux_fst_ge sig tmin tmax dt D c1 r (c1 + 1)

theorem innerScanAux_emit (sig : ℕ → ℚ) (tmin tmax dt D : ℚ) (start : ℕ) :
    ∀ (r c1 : ℕ), start ≤ c1 →
      (∀ j, start ≤ j → j < c1 →
        (tmin ≤ sig j ∧ sig j ≤ tmax) ∧ ((j : ℚ) - (start : ℚ)) * dt ≤ D) →
      ∀ iv, (innerScanAux sig tmin tmax dt D start r c1).2 = some iv →
        iv.1 = start ∧ iv.2 = (innerScanAux sig tmin tmax dt D start r c1).1 ∧
        (innerScanAux sig tmin tmax dt D start r c1).1 < c1 + r ∧
        D < ((iv.2 : ℚ) - (start : ℚ)) * dt ∧
        (∀ j, start ≤ j → j < iv.2 →
          (tmin ≤ sig j ∧ sig j ≤ tmax) ∧ ((j : ℚ) - (start : ℚ)) * dt ≤ D) := by
  intro r
  induction r with
  | zero =>
    intro c1 _ _ iv hiv
    exact absurd hiv (by simp [innerScanAux])
  | succ r ih =>
    intro c1 hstart hpre iv hiv
    by_cases hob : sig c1 < tmin ∨ tmax < sig c1
    · by_cases he : D < ((c1 : ℚ) - (start : ℚ)) * dt
      · simp only [innerScanAux, if_pos hob, if_pos he, Option.some.injEq] at hiv ⊢
        subst hiv
        exact ⟨rfl, rfl, by omega, he, hpre⟩
      · simp only [innerScanAux, if_pos hob, if_neg he] at hiv
        exact absurd hiv (by simp)
    · by_cases he : D < ((c1 : ℚ) - (start : ℚ)) * dt
      · simp only [innerScanAux, if_neg hob, if_pos he, Option.some.injEq] at hiv ⊢
        subst hiv
        exact ⟨rfl, rfl, by omega, he, hpre⟩
      · push_neg at hob
        have hpre' : ∀ j, start ≤ j → j < c1 + 1 →
            (tmin ≤ sig j ∧ sig j ≤ tmax) ∧ ((j : ℚ) - (start : ℚ)) * dt ≤ D := by
          intro j hj1 hj2
          rcases Nat.lt_succ_iff_lt_or_eq.mp hj2 with hj3 | rfl
          · exact hpre j hj1 hj3
          · exact ⟨⟨hob.1, hob.2⟩, not_lt.mp he⟩
        have hob' : ¬ (sig c1 < tmin ∨ tmax < sig c1) := by
          push_neg
          exact hob
        simp only [innerScanAux, if_neg hob', if_neg he] at hiv ⊢
        obtain ⟨a, b, hlt, d, e⟩ :=
          ih (c1 + 1) (le_trans hstart (Nat.le_succ c1)) hpre' iv hiv
        exact ⟨a, b, by omega, d, e⟩

theorem outerScan_sound (sig : ℕ → ℚ) (tmin tmax dt D : ℚ) (hi : ℕ) :
    ∀ (fuel comp : ℕ) (acc out : List (ℕ × ℕ)),
      outerScan sig tmin tmax dt D hi fuel comp acc = some out →
      ∀ iv ∈ out, iv ∈ acc ∨
        (comp ≤ iv.1 ∧ iv.2 < hi ∧ D < ((iv.2 : ℚ) - (iv.1 : ℚ)) * dt ∧
         ∀ j, iv.1 ≤ j → j < iv.2 →
           (tmin ≤ sig j ∧ sig j ≤ tmax) ∧ ((j : ℚ) - (iv.1 : ℚ)) * dt ≤ D) := by
  intro fuel
  induction fuel with
  | zero =>
    intro comp acc out h
    exact absurd h (by simp [outerScan])
  | succ fuel ih =>
    intro comp acc out h iv hiv
    by_cases hc : comp < hi
    · by_cases hib : tmin ≤ sig comp ∧ sig comp ≤ tmax
      · simp only [outerScan, if_pos hc, if_pos hib] at h
        rcases ih _ _ _ h iv hiv with hmem | hgood
        · rcases List.mem_append.mp hmem with hacc | hemit
          · exact Or.inl hacc
          · right
            have hsome : (innerScanAux sig tmin tmax dt D comp (hi - comp) comp).2 = some iv := by
              simpa [Option.mem_toList, Option.mem_def] using hemit
            obtain ⟨h1, h2, h3, h4, h5⟩ :=
              innerScanAux_emit sig tmin tmax dt D comp (hi - comp) comp
                (le_refl comp)
                (fun j hj1 hj2 => absurd (Nat.lt_of_le_of_lt hj1 hj2) (Nat.lt_irrefl comp))
                iv hsome
            subst h1
            refine ⟨le_refl iv.1, ?_, ?_, ?_⟩
            · omega
            · exact h4
            · exact h5
        · rcases hgood with ⟨h1, h2⟩
          right
          have := innerScanAux_fst_ge sig tmin tmax dt D comp (hi - comp) comp
          exact ⟨by omega, h2⟩
      · simp only [outerScan, if_pos hc, if_neg hib] at h
        rcases ih _ _ _ h iv hiv with hmem | hgood
        · exact Or.inl hmem
        · rcases hgood with ⟨h1, h2⟩
          exact Or.inr ⟨by omega, h2⟩
    · simp only [outerScan, if_neg hc, Option.some.injEq] at h
      subst h
      exact Or.inl hiv

theorem outerScan_isSome (sig : ℕ → ℚ) (tmin tmax dt D : ℚ) (hi : ℕ)
    (hD : 0 ≤ D) :
    ∀ (fuel comp : ℕ) (acc : List (ℕ × ℕ)), hi - comp < fuel →
      (outerScan sig tmin tmax dt D hi fuel comp acc).isSome = true := by
  intro fuel
  induction fuel with
  | zero => intro comp acc h; omega
  | succ fuel ih =>
    intro comp acc hfuel
    by_cases hc : comp < hi
    · by_cases hib : tmin ≤ sig comp ∧ sig comp ≤ tmax
      · simp only [outerScan, if_pos hc, if_pos hib]
        apply ih
        obtain ⟨r', hr'⟩ : ∃ r', hi - comp = r' + 1 := ⟨hi - comp - 1, by omega⟩
        have hprog := innerScanAux_progress sig tmin tmax dt D hD r' comp hib.1 hib.2
        rw [hr']
        omega
      · simp only [outerScan, if_pos hc, if_neg hib]
        apply ih
        omega
    · simp only [outerScan, if_neg hc, Option.isSome_some]


theorem roiHiIndex_le (dt : ℚ) (n : ℕ) (roi : ROI) : roiHiIndex dt n roi ≤ n - 1 := by
  unfold roiHiIndex roiHiIndexZ
  rw [Int.toNat_le]
  exact le_trans (min_le_right _ _) (by omega)

/-- C6: every interval the segmentation scan appends satisfies
`(end - start) * dt > signal_duration` with strict inequality (both the
out-of-band close of line 363 and the in-band close of line 369 test
exactly this before appending). -/
theorem accepted_interval_duration_strict (sig : ℕ → ℚ) (n : ℕ) (dt D : ℚ)
    (roi : ROI) (fuel : ℕ) (out : List (ℕ × ℕ))
    (h : segmentROI sig n dt D roi fuel = some out) :
    ∀ iv ∈ out, D < ((iv.2 : ℚ) - (iv.1 : ℚ)) * dt := by
  intro iv hiv
  rcases outerScan_sound sig roi.lower.2 roi.upper.2 dt D (roiHiIndex dt n roi)
      fuel (roiLoIndex dt roi) [] out h iv hiv with habs | hgood
  · exact absurd habs (List.not_mem_nil iv)
  · exact hgood.2.2.1

theorem accepted_interval_duration_strict_witness :
    segmentROI sigC 11 1 2 roiC 12 = some [(0, 3), (3, 6), (6, 9)] ∧
    (2 : ℚ) < (((3 : ℕ) : ℚ) - ((0 : ℕ) : ℚ)) * 1 := by
  refine ⟨by decide, ?_⟩
  exact accepted_interval_duration_strict sigC 11 1 2 roiC 12
    [(0, 3), (3, 6), (6, 9)] (by decide) (0, 3) (by decide)

/-- C1 (amended): every interval the segmentation scan emits starts at or
after the window start, ends strictly before the window end, consists of
in-band samples throughout `[start, end)`, is strictly longer than the
minimum duration, and is never longer than one sample beyond it: for every
proper prefix position `j < end`, `(j - start) * dt ≤ D`.  The scan closes a
run either at the first out-of-band sample or eagerly at the first in-band
sample at which the run length exceeds `D` (truncating the run there), so
emitted intervals need not be maximal in-band runs and need not close by a
transition out of band; a run reaching the window end before its length
exceeds `D` is never emitted. -/
theorem segmentation_eager_close_sound (sig : ℕ → ℚ) (n : ℕ) (dt D : ℚ)
    (roi : ROI) (fuel : ℕ) (out : List (ℕ × ℕ))
    (h : segmentROI sig n dt D roi fuel = some out) :
    ∀ iv ∈ out, roiLoIndex dt roi ≤ iv.1 ∧ iv.2 < roiHiIndex dt n roi ∧
      D < ((iv.2 : ℚ) - (iv.1 : ℚ)) * dt ∧
      ∀ j, iv.1 ≤ j → j < iv.2 →
        (roi.lower.2 ≤ sig j ∧ sig j ≤ roi.upper.2) ∧
        ((j : ℚ) - (iv.1 : ℚ)) * dt ≤ D := by
  intro iv hiv
  rcases outerScan_sound sig roi.lower.2 roi.upper.2 dt D (roiHiIndex dt n roi)
      fuel (roiLoIndex dt roi) [] out h iv hiv with habs | hgood
  · exact absurd habs (List.not_mem_nil iv)
  · exact hgood

theorem segmentation_eager_close_sound_witness :
    segmentROI sigC 11 1 2 roiC 12 = some [(0, 3), (3, 6), (6, 9)] ∧
    (roiLoIndex 1 roiC ≤ 0 ∧ 3 < roiHiIndex 1 11 roiC ∧
      (2 : ℚ) < (((3 : ℕ) : ℚ) - ((0 : ℕ) : ℚ)) * 1 ∧
      ∀ j, 0 ≤ j → j < 3 →
        (roiC.lower.2 ≤ sigC j ∧ sigC j ≤ roiC.upper.2) ∧
        ((j : ℚ) - ((0 : ℕ) : ℚ)) * 1 ≤ 2) := by
  refine ⟨by decide, ?_⟩
  exact segmentation_eager_close_sound sigC 11 1 2 roiC 12
    [(0, 3), (3, 6), (6, 9)] (by decide) (0, 3) (by decide)

/-- C1 (counterexample): on an everywhere-in-band signal the code emits
eagerly truncated runs — here `(0,3)`, `(3,6)`, `(6,9)`, adjacent and with
the sample at each emitted end still inside the band — while the scan the
claim describes (maximal runs closed by a transition out of band, runs
still in-band at the window end never emitted) emits nothing at all. -/
theorem segmentation_not_maximal_runs_counterexample :
    segmentROI sigC 11 1 2 roiC 12 = some [(0, 3), (3, 6), (6, 9)] ∧
    specCandidateRuns sigC roiC.lower.2 roiC.upper.2 1 2
      (roiLoIndex 1 roiC) (roiHiIndex 1 11 roiC) = [] ∧
    (roiC.lower.2 ≤ sigC 3 ∧ sigC 3 ≤ roiC.upper.2) := by
  exact ⟨by decide, by decide, by decide⟩

/-- C10: every emitted interval `(s, e)` satisfies `0 ≤ s < e ≤ n - 1` (the
upper time bound is clamped to index `n - 1` and both loops use it as a
strict bound), so the final sample of the buffer belongs to no emitted
interval. -/
theorem candidate_interval_bounds (sig : ℕ → ℚ) (n : ℕ) (dt D : ℚ)
    (roi : ROI) (fuel : ℕ) (out : List (ℕ × ℕ))
    (hdt : 0 < dt) (hD : 0 ≤ D)
    (h : segmentROI sig n dt D roi fuel = some out) :
    ∀ iv ∈ out, iv.1 < iv.2 ∧ iv.2 ≤ n - 1 := by
  intro iv hiv
  rcases outerScan_sound sig roi.lower.2 roi.upper.2 dt D (roiHiIndex dt n roi)
      fuel (roiLoIndex dt roi) [] out h iv hiv with habs | hgood
  · exact absurd habs (List.not_mem_nil iv)
  · obtain ⟨-, h2, h3, -⟩ := hgood
    constructor
    · by_contra hle
      have hle' : iv.2 ≤ iv.1 := Nat.le_of_not_lt hle
      have hq : ((iv.2 : ℚ) - (iv.1 : ℚ)) ≤ 0 := by
        rw [sub_nonpos]
        exact_mod_cast hle'
      nlinarith
    · have := roiHiIndex_le dt n roi
      omega

theorem candidate_interval_bounds_witness :
    (0 : ℚ) < 1 ∧ (0 : ℚ) ≤ 2 ∧
    segmentROI sigC 11 1 2 roiC 12 = some [(0, 3), (3, 6), (6, 9)] ∧
    (0 < 3 ∧ 3 ≤ 11 - 1) := by
  refine ⟨by norm_num, by norm_num, by decide, ?_⟩
  exact candidate_interval_bounds sigC 11 1 2 roiC 12 [(0, 3), (3, 6), (6, 9)]
    (by norm_num) (by norm_num) (by decide) (0, 3) (by decide)

/-- C9: with `signal_duration > 0` the scan strictly advances on every step
(the inner loop advances at least once from an in-band start before it can
break), so `update_valid_intervals` terminates for any scope: fuel one more
than the signal length is always enough for the outer loop. -/
theorem update_valid_intervals_terminates (sig : ℕ → ℚ) (n : ℕ) (dt D S : ℚ)
    (zones : List ROI) (roi : ROI) (hD : 0 < D) :
    (updateValidIntervalsROI sig n dt D S zones roi (n + 1)).isSome = true := by
  unfold updateValidIntervalsROI
  rw [Option.isSome_map']
  unfold segmentROI
  apply outerScan_isSome sig roi.lower.2 roi.upper.2 dt D (roiHiIndex dt n roi) hD.le
  have := roiHiIndex_le dt n roi
  omega

/-! ### The separation pass against the spec's greedy thinning -/

theorem sepInnerAux_some (v : List (ℕ × ℕ)) (dt S : ℚ) (cur : ℕ × ℕ) :
    ∀ (r c comp1 : ℕ), sepInnerAux v dt S cur r c = some comp1 →
      c ≤ comp1 ∧ comp1 < c + r ∧
      S ≤ (((v.getD comp1 (0, 0)).1 : ℚ) - ((cur.2 : ℕ) : ℚ)) * dt ∧
      ∀ j, c ≤ j → j < comp1 →
        ¬ S ≤ (((v.getD j (0, 0)).1 : ℚ) - ((cur.2 : ℕ) : ℚ)) * dt := by
  intro r
  induction r with
  | zero =>
    intro c comp1 h
    exact absurd h (by simp [sepInnerAux])
  | succ r ih =>
    intro c comp1 h
    by_cases hok : S ≤ (((v.getD c (0, 0)).1 : ℚ) - ((cur.2 : ℕ) : ℚ)) * dt
    · simp only [sepInnerAux, if_pos hok, Option.some.injEq] at h
      subst h
      exact ⟨le_refl c, by omega, hok,
        fun j hj1 hj2 => absurd (Nat.lt_of_le_of_lt hj1 hj2) (Nat.lt_irrefl c)⟩
    · simp only [sepInnerAux, if_neg hok] at h
      obtain ⟨h1, h2, h3, h4⟩ := ih (c + 1) comp1 h
      refine ⟨by omega, by omega, h3, ?_⟩
      intro j hj1 hj2
      rcases Nat.eq_or_lt_of_le hj1 with rfl | hj1'
      · exact hok
      · exact h4 j hj1' hj2

theorem sepInnerAux_none (v : List (ℕ × ℕ)) (dt S : ℚ) (cur : ℕ × ℕ) :
    ∀ (r c : ℕ), sepInnerAux v dt S cur r c = none →
      ∀ j, c ≤ j → j < c + r →
        ¬ S ≤ (((v.getD j (0, 0)).1 : ℚ) - ((cur.2 : ℕ) : ℚ)) * dt := by
  intro r
  induction r with
  | zero => intro c _ j hj1 hj2; omega
  | succ r ih =>
    intro c h j hj1 hj2
    by_cases hok : S ≤ (((v.getD c (0, 0)).1 : ℚ) - ((cur.2 : ℕ) : ℚ)) * dt
    · rw [sepInnerAux, if_pos hok] at h
      exact absurd h (by simp)
    · simp only [sepInnerAux, if_neg hok] at h
      rcases Nat.eq_or_lt_of_le hj1 with rfl | hj1'
      · exact hok
      · exact ih (c + 1) h j hj1' (by omega)

theorem greedyKeep_nil_of_forall (dt S : ℚ) (last : ℕ × ℕ) :
    ∀ (l : List (ℕ × ℕ)),
      (∀ x ∈ l, ¬ S ≤ ((x.1 : ℚ) - ((last.2 : ℕ) : ℚ)) * dt) →
      greedyKeep dt S last l = [] := by
  intro l
  induction l with
  | nil => intro _; rfl
  | cons x xs ih =>
    intro h
    rw [greedyKeep, if_neg (h x (List.mem_cons_self x xs))]
    exact ih (fun y hy => h y (List.mem_cons_of_mem x hy))

theorem greedyKeep_skip (dt S : ℚ) (v : List (ℕ × ℕ)) (last : ℕ × ℕ) :
    ∀ (k a c1 : ℕ), c1 - a = k → a ≤ c1 → c1 < v.length →
      (∀ j, a ≤ j → j < c1 →
        ¬ S ≤ (((v.getD j (0, 0)).1 : ℚ) - ((last.2 : ℕ) : ℚ)) * dt) →
      S ≤ (((v.getD c1 (0, 0)).1 : ℚ) - ((last.2 : ℕ) : ℚ)) * dt →
      greedyKeep dt S last (v.drop a)
        = v.getD c1 (0, 0) :: greedyKeep dt S (v.getD c1 (0, 0)) (v.drop (c1 + 1)) := by
  intro k
  induction k with
  | zero =>
    intro a c1 hk ha hlen _ hok
    have ha' : a = c1 := by omega
    subst ha'
    rw [List.drop_eq_getElem_cons hlen, ← List.getD_eq_getElem v (0, 0) hlen]
    rw [greedyKeep, if_pos hok]
  | succ k ih =>
    intro a c1 hk ha hlen hfail hok
    have halt : a < c1 := by omega
    have halen : a < v.length := by omega
    rw [List.drop_eq_getElem_cons halen, ← List.getD_eq_getElem v (0, 0) halen]
    rw [greedyKeep, if_neg (hfail a (le_refl a) halt)]
    exact ih (a + 1) c1 (by omega) (by omega) hlen
      (fun j hj1 hj2 => hfail j (by omega) hj2) hok

theorem greedyKeep_chain' (dt S : ℚ) :
    ∀ (l : List (ℕ × ℕ)) (last : ℕ × ℕ),
      List.Chain' (fun a b : ℕ × ℕ => S ≤ ((b.1 : ℚ) - ((a.2 : ℕ) : ℚ)) * dt)
        (last :: greedyKeep dt S last l) := by
  intro l
  induction l with
  | nil => intro last; simp [greedyKeep]
  | cons x xs ih =>
    intro last
    rw [greedyKeep]
    split
    · rename_i hok
      rw [List.chain'_cons]
      exact ⟨hok, ih x⟩
    · exact ih last

theorem greedyKeep_sublist (dt S : ℚ) :
    ∀ (l : List (ℕ × ℕ)) (last : ℕ × ℕ), List.Sublist (greedyKeep dt S last l) l := by
  intro l
  induction l with
  | nil => intro last; exact List.Sublist.refl []
  | cons x xs ih =>
    intro last
    rw [greedyKeep]
    split
    · exact List.Sublist.cons₂ x (ih x)
    · exact List.Sublist.cons x (ih last)

theorem greedyMerge_sublist (dt S : ℚ) (v : List (ℕ × ℕ)) :
    List.Sublist (greedyMerge dt S v) v := by
  cases v with
  | nil => exact List.Sublist.refl []
  | cons v0 rest => exact List.Sublist.cons₂ v0 (greedyKeep_sublist dt S rest v0)

theorem forall_mem_drop {α : Type} (v : List α) (d : α) (P : α → Prop) (a : ℕ)
    (h : ∀ j, a ≤ j → j < v.length → P (v.getD j d)) :
    ∀ x ∈ v.drop a, P x := by
  intro x hx
  rw [List.mem_iff_getElem] at hx
  obtain ⟨i, hi, hx⟩ := hx
  have hlen : a + i < v.length := by
    have := List.length_drop a v
    omega
  have hx2 : x = v.getD (a + i) d := by
    rw [List.getD_eq_getElem v d hlen, ← List.getElem_drop v, hx]
  rw [hx2]
  exact h (a + i) (Nat.le_add_right a i) hlen

theorem sepOuterAux_eq_greedy (v : List (ℕ × ℕ)) (dt S : ℚ) (hdt : 0 ≤ dt)
    (hpw : List.Pairwise (fun a b : ℕ × ℕ => a.2 ≤ b.1) v)
    (hproper : ∀ iv ∈ v, iv.1 ≤ iv.2) :
    ∀ (fuel comp : ℕ) (temp : List (ℕ × ℕ)),
      comp < v.length → v.length - comp ≤ fuel →
      sepOuterAux v dt S fuel comp temp
        = temp ++ greedyKeep dt S (v.getD comp (0, 0)) (v.drop (comp + 1)) := by
  intro fuel
  induction fuel with
  | zero => intro comp temp hcomp hfuel; omega
  | succ fuel ih =>
    intro comp temp hcomp hfuel
    by_cases h : comp < v.length - 1
    · cases hsi : sepInnerAux v dt S (v.getD comp (0, 0)) (v.length - (comp + 1)) (comp + 1) with
      | some c1 =>
        obtain ⟨h1, h2, h3, h4⟩ := sepInnerAux_some v dt S (v.getD comp (0, 0)) _ _ _ hsi
        have hc1len : c1 < v.length := by omega
        simp only [sepOuterAux, if_pos h, hsi]
        rw [ih c1 (temp ++ [v.getD c1 (0, 0)]) hc1len (by omega)]
        rw [greedyKeep_skip dt S v (v.getD comp (0, 0)) (c1 - (comp + 1)) (comp + 1) c1
          rfl (by omega) hc1len h4 h3]
        simp
      | none =>
        have h5 := sepInnerAux_none v dt S (v.getD comp (0, 0)) _ _ hsi
        have h5' : ∀ j, comp + 1 ≤ j → j < v.length →
            ¬ S ≤ (((v.getD j (0, 0)).1 : ℚ) - (((v.getD comp (0, 0)).2 : ℕ) : ℚ)) * dt := by
          intro j hj1 hj2
          exact h5 j hj1 (by omega)
        have hadj : (v.getD comp (0, 0)).2 ≤ (v.getD (comp + 1) (0, 0)).1 := by
          have hcl : comp < v.length := hcomp
          have hc1l : comp + 1 < v.length := by omega
          rw [List.getD_eq_getElem v (0, 0) hcl, List.getD_eq_getElem v (0, 0) hc1l]
          exact List.pairwise_iff_getElem.mp hpw comp (comp + 1) hcl hc1l (Nat.lt_succ_self comp)
        have hprop1 : (v.getD (comp + 1) (0, 0)).1 ≤ (v.getD (comp + 1) (0, 0)).2 := by
          have hc1l : comp + 1 < v.length := by omega
          refine hproper _ ?_
          rw [List.getD_eq_getElem v (0, 0) hc1l]
          exact List.getElem_mem hc1l
        have h5'' : ∀ j, comp + 1 + 1 ≤ j → j < v.length →
            ¬ S ≤ (((v.getD j (0, 0)).1 : ℚ) - (((v.getD (comp + 1) (0, 0)).2 : ℕ) : ℚ)) * dt := by
          intro j hj1 hj2 hok
          refine h5' j (by omega) hj2 ?_
          refine le_trans hok ?_
          refine mul_le_mul_of_nonneg_right ?_ hdt
          refine sub_le_sub_left ?_ _
          exact_mod_cast le_trans hadj hprop1
        simp only [sepOuterAux, if_pos h, hsi]
        rw [ih (comp + 1) temp (by omega) (by omega)]
        rw [greedyKeep_nil_of_forall dt S (v.getD comp (0, 0)) (v.drop (comp + 1))
          (forall_mem_drop v (0, 0) _ (comp + 1) h5')]
        rw [greedyKeep_nil_of_forall dt S (v.getD (comp + 1) (0, 0)) (v.drop (comp + 1 + 1))
          (forall_mem_drop v (0, 0) _ (comp + 1 + 1) h5'')]
    · simp only [sepOuterAux, if_neg h]
      rw [List.drop_eq_nil_of_le (by omega : v.length ≤ comp + 1)]
      simp [greedyKeep]

theorem chain'_pairwise_disjoint :
    ∀ (v : List (ℕ × ℕ)), List.Chain' (fun a b : ℕ × ℕ => a.2 ≤ b.1) v →
      (∀ iv ∈ v, iv.1 ≤ iv.2) →
      List.Pairwise (fun a b : ℕ × ℕ => a.2 ≤ b.1) v := by
  intro v
  induction v with
  | nil => intro _ _; exact List.Pairwise.nil
  | cons a t ih =>
    intro hc hp
    rw [List.pairwise_cons]
    have hct : List.Chain' _ t := hc.tail
    have hpt := ih hct (fun iv hiv => hp iv (List.mem_cons_of_mem a hiv))
    refine ⟨?_, hpt⟩
    cases t with
    | nil => intro b hb; exact absurd hb (List.not_mem_nil b)
    | cons b t2 =>
      have hab : a.2 ≤ b.1 := (List.chain'_cons.mp hc).1
      intro x hx
      rcases List.mem_cons.mp hx with rfl | hx2
      · exact hab
      · have hbx : b.2 ≤ x.1 := (List.pairwise_cons.mp hpt).1 x hx2
        have hbb : b.1 ≤ b.2 := hp b (List.mem_cons_of_mem a (List.mem_cons_self b t2))
        omega

theorem pairwise_no_containment :
    ∀ (v : List (ℕ × ℕ)), List.Pairwise (fun a b : ℕ × ℕ => a.2 ≤ b.1) v →
      (∀ iv ∈ v, iv.1 < iv.2) →
      List.Pairwise (fun a b : ℕ × ℕ =>
        ¬ (b.1 ≤ a.1 ∧ a.2 ≤ b.2) ∧ ¬ (a.1 ≤ b.1 ∧ b.2 ≤ a.2)) v := by
  intro v
  induction v with
  | nil => intro _ _; exact List.Pairwise.nil
  | cons a t ih =>
    intro hpw hp
    rw [List.pairwise_cons] at hpw ⊢
    refine ⟨?_, ih hpw.2 (fun iv hiv => hp iv (List.mem_cons_of_mem a hiv))⟩
    intro b hb
    have hdis := hpw.1 b hb
    have hpa := hp a (List.mem_cons_self a t)
    have hpb := hp b (List.mem_cons_of_mem a hb)
    omega

theorem greedyMerge_chain' (dt S : ℚ) (v : List (ℕ × ℕ)) :
    List.Chain' (fun a b : ℕ × ℕ => S ≤ ((b.1 : ℚ) - ((a.2 : ℕ) : ℚ)) * dt)
      (greedyMerge dt S v) := by
  cases v with
  | nil => exact List.chain'_nil
  | cons v0 rest => exact greedyKeep_chain' dt S rest v0

theorem separationPass_eq_greedyMerge (dt S : ℚ) (v : List (ℕ × ℕ)) (hdt : 0 ≤ dt)
    (hchain : List.Chain' (fun a b : ℕ × ℕ => a.2 ≤ b.1) v)
    (hproper : ∀ iv ∈ v, iv.1 ≤ iv.2) :
    separationPass dt S v = greedyMerge dt S v := by
  unfold separationPass
  by_cases h2 : 2 ≤ v.length
  · rw [if_pos h2]
    rw [sepOuterAux_eq_greedy v dt S hdt (chain'_pairwise_disjoint v hchain hproper) hproper
      v.length 0 [v.getD 0 (0, 0)] (by omega) (by omega)]
    cases v with
    | nil => simp at h2
    | cons v0 rest => simp [greedyMerge]
  · rw [if_neg h2]
    rcases v with _ | ⟨x, _ | ⟨y, t⟩⟩
    · rfl
    · rfl
    · exfalso
      simp [List.length_cons] at h2

/-- C7: on an ascending, pairwise-disjoint list of intervals (consecutive
intervals satisfy `prev.end ≤ next.start`, and each interval has
`start ≤ end`), the code's doubly-nested separation scan produces exactly
the kept list of the spec's greedy thinning: keep the first interval, keep
each later candidate iff its start is at least `S` seconds after the end of
the last kept interval, and compare the next candidate against the same
last-kept interval otherwise. -/
theorem separation_pass_refines_greedy (dt S : ℚ) (v : List (ℕ × ℕ))
    (hdt : 0 ≤ dt)
    (hchain : List.Chain' (fun a b : ℕ × ℕ => a.2 ≤ b.1) v)
    (hproper : ∀ iv ∈ v, iv.1 ≤ iv.2) :
    separationPass dt S v = greedyMerge dt S v :=
  separationPass_eq_greedyMerge dt S v hdt hchain hproper

theorem separation_pass_refines_greedy_witness :
    (0 : ℚ) ≤ 1 ∧
    List.Chain' (fun a b : ℕ × ℕ => a.2 ≤ b.1) [(0, 2), (4, 6), (20, 22)] ∧
    (∀ iv ∈ ([(0, 2), (4, 6), (20, 22)] : List (ℕ × ℕ)), iv.1 ≤ iv.2) ∧
    separationPass 1 5 [(0, 2), (4, 6), (20, 22)]
      = greedyMerge 1 5 [(0, 2), (4, 6), (20, 22)] := by
  have hc : List.Chain' (fun a b : ℕ × ℕ => a.2 ≤ b.1) [(0, 2), (4, 6), (20, 22)] := by
    simp [List.chain'_cons]
  have hp : ∀ iv ∈ ([(0, 2), (4, 6), (20, 22)] : List (ℕ × ℕ)), iv.1 ≤ iv.2 := by
    decide
  exact ⟨by norm_num, hc, hp,
    separation_pass_refines_greedy 1 5 [(0, 2), (4, 6), (20, 22)] (by norm_num) hc hp⟩

theorem outerScan_chain (sig : ℕ → ℚ) (tmin tmax dt D : ℚ) (hi : ℕ) :
    ∀ (fuel comp : ℕ) (acc out : List (ℕ × ℕ)),
      outerScan sig tmin tmax dt D hi fuel comp acc = some out →
      (∀ a ∈ acc, a.2 ≤ comp) →
      List.Chain' (fun a b : ℕ × ℕ => a.2 ≤ b.1) acc →
      List.Chain' (fun a b : ℕ × ℕ => a.2 ≤ b.1) out := by
  intro fuel
  induction fuel with
  | zero =>
    intro comp acc out h
    exact absurd h (by simp [outerScan])
  | succ fuel ih =>
    intro comp acc out h hbnd hch
    by_cases hc : comp < hi
    · by_cases hib : tmin ≤ sig comp ∧ sig comp ≤ tmax
      · simp only [outerScan, if_pos hc, if_pos hib] at h
        cases hem : (innerScanAux sig tmin tmax dt D comp (hi - comp) comp).2 with
        | none =>
          rw [hem] at h
          simp only [Option.toList_none, List.append_nil] at h
          refine ih _ _ _ h (fun a ha => ?_) hch
          exact le_trans (hbnd a ha) (innerScanAux_fst_ge sig tmin tmax dt D comp (hi - comp) comp)
        | some iv =>
          rw [hem] at h
          simp only [Option.toList_some] at h
          obtain ⟨h1, h2, -, -, -⟩ :=
            innerScanAux_emit sig tmin tmax dt D comp (hi - comp) comp
              (le_refl comp)
              (fun j hj1 hj2 => absurd (Nat.lt_of_le_of_lt hj1 hj2) (Nat.lt_irrefl comp))
              iv hem
          refine ih _ _ _ h (fun a ha => ?_) ?_
          · rcases List.mem_append.mp ha with ha1 | ha2
            · exact le_trans (hbnd a ha1)
                (innerScanAux_fst_ge sig tmin tmax dt D comp (hi - comp) comp)
            · have : a = iv := by simpa using ha2
              subst this
              exact le_of_eq h2
          · rw [List.chain'_append]
            refine ⟨hch, List.chain'_singleton iv, ?_⟩
            intro x hx y hy
            have hx2 : x ∈ acc := List.mem_of_mem_getLast? hx
            have hy2 : iv = y := by simpa using hy
            subst hy2
            rw [h1]
            exact hbnd x hx2
      · simp only [outerScan, if_pos hc, if_neg hib] at h
        exact ih _ _ _ h (fun a ha => le_trans (hbnd a ha) (Nat.le_succ comp)) hch
    · simp only [outerScan, if_neg hc, Option.some.injEq] at h
      exact h ▸ hch

/-- C4: for the interval list a scope's segmentation produced and any set of
excluded zones, after the exclusion pass and then the separation pass every
pair of consecutive kept intervals satisfies
`(next.start - prev.end) * dt ≥ S`, and no kept interval is a sub-interval
of another (the intervals surviving the exclusion pass are pairwise
disjoint and in ascending start order, and the separation pass thins them
greedily). -/
theorem separation_pass_invariants (sig : ℕ → ℚ) (n : ℕ) (dt D S : ℚ)
    (zones : List ROI) (roi : ROI) (fuel : ℕ) (ivs : List (ℕ × ℕ))
    (hdt : 0 < dt) (hD : 0 ≤ D)
    (h : segmentROI sig n dt D roi fuel = some ivs) :
    List.Chain' (fun a b : ℕ × ℕ => S ≤ ((b.1 : ℚ) - ((a.2 : ℕ) : ℚ)) * dt)
      (separationPass dt S (exclusionPass dt n zones ivs)) ∧
    List.Pairwise (fun a b : ℕ × ℕ =>
        ¬ (b.1 ≤ a.1 ∧ a.2 ≤ b.2) ∧ ¬ (a.1 ≤ b.1 ∧ b.2 ≤ a.2))
      (separationPass dt S (exclusionPass dt n zones ivs)) := by
  have hchain_ivs : List.Chain' (fun a b : ℕ × ℕ => a.2 ≤ b.1) ivs :=
    outerScan_chain sig roi.lower.2 roi.upper.2 dt D (roiHiIndex dt n roi)
      fuel (roiLoIndex dt roi) [] ivs h
      (fun a ha => absurd ha (List.not_mem_nil a)) List.chain'_nil
  have hproper_ivs : ∀ iv ∈ ivs, iv.1 < iv.2 := by
    intro iv hiv
    rcases outerScan_sound sig roi.lower.2 roi.upper.2 dt D (roiHiIndex dt n roi)
        fuel (roiLoIndex dt roi) [] ivs h iv hiv with habs | hgood
    · exact absurd habs (List.not_mem_nil iv)
    · obtain ⟨-, -, h3, -⟩ := hgood
      by_contra hle
      have hle' : iv.2 ≤ iv.1 := Nat.le_of_not_lt hle
      have hq : ((iv.2 : ℚ) - (iv.1 : ℚ)) ≤ 0 := by
        rw [sub_nonpos]
        exact_mod_cast hle'
      nlinarith
  have hsubl : List.Sublist (exclusionPass dt n zones ivs) ivs := List.filter_sublist ivs
  have hpw_ivs : List.Pairwise (fun a b : ℕ × ℕ => a.2 ≤ b.1) ivs :=
    chain'_pairwise_disjoint ivs hchain_ivs (fun iv hiv => (hproper_ivs iv hiv).le)
  have hpw_l : List.Pairwise (fun a b : ℕ × ℕ => a.2 ≤ b.1) (exclusionPass dt n zones ivs) :=
    List.Pairwise.sublist hsubl hpw_ivs
  have hproper_l : ∀ iv ∈ exclusionPass dt n zones ivs, iv.1 < iv.2 :=
    fun iv hiv => hproper_ivs iv (hsubl.subset hiv)
  rw [separationPass_eq_greedyMerge dt S (exclusionPass dt n zones ivs) hdt.le
    hpw_l.chain' (fun iv hiv => (hproper_l iv hiv).le)]
  constructor
  · exact greedyMerge_chain' dt S (exclusionPass dt n zones ivs)
  · have hsub2 := greedyMerge_sublist dt S (exclusionPass dt n zones ivs)
    exact pairwise_no_containment _ (List.Pairwise.sublist hsub2 hpw_l)
      (fun iv hiv => hproper_l iv (hsub2.subset hiv))

theorem separation_pass_invariants_witness :
    (0 : ℚ) < 1 ∧ (0 : ℚ) ≤ 2 ∧
    (List.Chain' (fun a b : ℕ × ℕ => (1 : ℚ) ≤ ((b.1 : ℚ) - ((a.2 : ℕ) : ℚ)) * 1)
      (separationPass 1 1 (exclusionPass 1 11 [] [(0, 3), (3, 6), (6, 9)])) ∧
     List.Pairwise (fun a b : ℕ × ℕ =>
        ¬ (b.1 ≤ a.1 ∧ a.2 ≤ b.2) ∧ ¬ (a.1 ≤ b.1 ∧ b.2 ≤ a.2))
      (separationPass 1 1 (exclusionPass 1 11 [] [(0, 3), (3, 6), (6, 9)]))) := by
  refine ⟨by norm_num, by norm_num, ?_⟩
  exact separation_pass_invariants sigC 11 1 2 1 [] roiC 12 [(0, 3), (3, 6), (6, 9)]
    (by norm_num) (by norm_num) (by decide)

theorem update_valid_intervals_terminates_witness :
    (0 : ℚ) < 2 ∧
    (updateValidIntervalsROI sigC 11 1 2 0 [] roiC (11 + 1)).isSome = true := by
  refine ⟨by norm_num, ?_⟩
  exact update_valid_intervals_terminates sigC 11 1 2 0 [] roiC (by norm_num)

end Plethysmo
